import Mathlib

/-!
Shallow embedding of the message types, builder and sanitizer of the
`damac-italia/shared_types` repository (files `src/telegram.rs` and
`src/telegram_queue_message.rs`), together with theorems settling the
specification claims.

Modelling conventions:
* Rust `String` / `&str` values are Lean `String`s; a Rust string is a
  sequence of Unicode scalar values, exactly like `String.data : List Char`.
* Rust `String::len` (the UTF-8 byte count) is modelled by `utf8Len`
  (`Char.utf8Size` agrees with Rust `char::len_utf8`).
* Rust `str::chars().take(n).collect()` is `List.take n` on `String.data`.
* `html_escape::encode_text` (external crate dependency; it replaces each
  occurrence of the three characters `&`, `<`, `>` by `&amp;`, `&lt;`,
  `&gt;` and leaves every other character, quotes included, unchanged)
  is modelled character-wise by `escChar` / `escape`.
* Rust `str::replace pat rep` (replace all non-overlapping occurrences of
  `pat`, scanning left to right) is modelled by `replaceL`, implemented
  by structural recursion with a skip counter so that every definition is
  executable and reduces inside the kernel.  Since all patterns used by
  the code are ASCII and UTF-8 is self-synchronizing, Rust's byte-level
  matching coincides with the character-level matching used here.
-/

namespace Telegram

/-- Model of `MessageStatus` (telegram.rs, lines 5-12). -/
inductive MessageStatus where
  | None
  | Info
  | Warn
  | Error
  | Ok
deriving DecidableEq

/-- Model of `MessageStatus::emoji` (telegram.rs, lines 16-24). -/
def MessageStatus.emoji : MessageStatus → String
  | MessageStatus.None => ""
  | MessageStatus.Info => "ℹ️"
  | MessageStatus.Warn => "⚠️"
  | MessageStatus.Error => "🚨"
  | MessageStatus.Ok => "✅"

/-- Model of the struct `TelegramQueueMessage` (telegram.rs, lines 29-35).
The Rust field `chat_id : i64` is modelled as `Int` (the code performs no
arithmetic on it, so wrap-around never matters). -/
structure TelegramQueueMessage where
  chat_id : Int
  message : String
  force_send : Bool
deriving DecidableEq

/-- Model of `TelegramQueueMessage::new` (telegram.rs, lines 40-46). -/
def TelegramQueueMessage.new (chat_id : Int) (message : String)
    (force_send : Bool) : TelegramQueueMessage :=
  { chat_id := chat_id, message := message, force_send := force_send }

/-- Model of Rust `String::len` on our strings: the total UTF-8 byte size
of the character sequence. -/
def utf8Len (s : String) : Nat :=
  s.data.foldl (fun n c => n + c.utf8Size) 0

/-- Character-wise model of `html_escape::encode_text`: `&`, `<`, `>` are
replaced by their entities; every other character is kept as-is. -/
def escChar (c : Char) : List Char :=
  if c = '&' then "&amp;".data
  else if c = '<' then "&lt;".data
  else if c = '>' then "&gt;".data
  else [c]

/-- Model of `html_escape::encode_text` applied to a character sequence. -/
def escape (s : List Char) : List Char :=
  s.flatMap escChar

/-- Worker for `replaceL`.  While the first `Nat` argument is positive it
silently consumes characters (the tail of a pattern occurrence that was
already matched); at `0` it scans for the next occurrence of `pat`. -/
def replAux (pat rep : List Char) : Nat → List Char → List Char
  | _ + 1, [] => []
  | k + 1, _ :: cs => replAux pat rep k cs
  | 0, [] => []
  | 0, c :: cs =>
    if List.isPrefixOf pat (c :: cs) then
      rep ++ replAux pat rep (pat.length - 1) cs
    else
      c :: replAux pat rep 0 cs

/-- Model of Rust `str::replace`: replace all non-overlapping occurrences
of `pat` by `rep`, scanning left to right. -/
def replaceL (pat rep s : List Char) : List Char :=
  replAux pat rep 0 s

/-- The allow-list `allowed_simple` (telegram.rs, lines 80-84). -/
def allowedSimple : List String :=
  ["b", "strong", "i", "em", "u", "ins",
   "s", "strike", "del", "code", "pre",
   "blockquote", "tg-spoiler"]

/-- The escaped open-tag pattern `format!("&lt;{}&gt;", tag)`. -/
def openPat (tag : String) : List Char :=
  ("&lt;" ++ tag ++ "&gt;").data

/-- The escaped close-tag pattern `format!("&lt;/{}&gt;", tag)`. -/
def closePat (tag : String) : List Char :=
  ("&lt;/" ++ tag ++ "&gt;").data

/-- The literal open tag `format!("<{}>", tag)`. -/
def openTag (tag : String) : List Char :=
  ("<" ++ tag ++ ">").data

/-- The literal close tag `format!("</{}>", tag)`. -/
def closeTag (tag : String) : List Char :=
  ("</" ++ tag ++ ">").data

/-- One iteration of the re-enabling loop (telegram.rs, lines 86-93):
`escaped.replace(&open, "<tag>").replace(&close, "</tag>")`. -/
def reenableStep (acc : List Char) (tag : String) : List Char :=
  replaceL (closePat tag) (closeTag tag)
    (replaceL (openPat tag) (openTag tag) acc)

/-- The whole re-enabling loop over the allow-list, in list order. -/
def reenable (escaped : List Char) : List Char :=
  List.foldl reenableStep escaped allowedSimple

/-- Model of the body of `TelegramQueueMessage::sanitize_message`
(telegram.rs, lines 65-96) as a pure function on the message text:
byte-length overflow check, character-count truncation, HTML escaping,
overflow marker, selective tag re-enabling. -/
def sanitize_message (message : String) (max_message_length : Nat) : String :=
  let overflow_length := utf8Len message > max_message_length
  let trimmed : List Char := message.data.take max_message_length
  let escaped := escape trimmed
  let escaped2 := if overflow_length then escaped ++ "...".data else escaped
  String.mk (reenable escaped2)

/-- Model of the method `TelegramQueueMessage::sanitize_message`: it
overwrites `self.message` with the sanitized text and touches nothing
else. -/
def TelegramQueueMessage.sanitize_message (self : TelegramQueueMessage)
    (max_message_length : Nat) : TelegramQueueMessage :=
  { self with message := Telegram.sanitize_message self.message max_message_length }

/-- Model of the struct `TelegramMessageBuilder` (telegram.rs, lines 100-106). -/
structure TelegramMessageBuilder where
  chat_id : Int
  status : MessageStatus
  job_name : String
  content : String
  force_send : Bool

/-- Model of `TelegramMessageBuilder::new` (telegram.rs, lines 110-118). -/
def TelegramMessageBuilder.new (chat_id : Int) : TelegramMessageBuilder :=
  { chat_id := chat_id, status := MessageStatus.None,
    job_name := "", content := "", force_send := false }

/-- Model of the fluent setter `TelegramMessageBuilder::status`. -/
def TelegramMessageBuilder.withStatus (self : TelegramMessageBuilder)
    (status : MessageStatus) : TelegramMessageBuilder :=
  { self with status := status }

/-- Model of the fluent setter `TelegramMessageBuilder::job_name`. -/
def TelegramMessageBuilder.withJobName (self : TelegramMessageBuilder)
    (job_name : String) : TelegramMessageBuilder :=
  { self with job_name := job_name }

/-- Model of the fluent setter `TelegramMessageBuilder::content`. -/
def TelegramMessageBuilder.withContent (self : TelegramMessageBuilder)
    (content : String) : TelegramMessageBuilder :=
  { self with content := content }

/-- Model of the fluent setter `TelegramMessageBuilder::force_send`. -/
def TelegramMessageBuilder.withForceSend (self : TelegramMessageBuilder)
    (force_send : Bool) : TelegramMessageBuilder :=
  { self with force_send := force_send }

/-- Model of `TelegramMessageBuilder::build` (telegram.rs, lines 148-162):
renders `format!("{}<i>{}</i>\n{}", status_prefix, job_name, content)`
where `status_prefix` is empty for `MessageStatus::None` and
`format!("{} - ", emoji)` otherwise. -/
def TelegramMessageBuilder.build (self : TelegramMessageBuilder) :
    TelegramQueueMessage :=
  let status_prefix :=
    if self.status = MessageStatus.None then "" else self.status.emoji ++ " - "
  { chat_id := self.chat_id,
    message := status_prefix ++ "<i>" ++ self.job_name ++ "</i>\n" ++ self.content,
    force_send := self.force_send }

end Telegram

namespace TelegramQueueMessageModule

/-- Model of the duplicate struct `TelegramQueueMessage`
(telegram_queue_message.rs, lines 6-12). -/
structure TelegramQueueMessage where
  chat_id : Int
  message : String
  force_send : Bool
deriving DecidableEq

/-- The duplicate module's copy of the allow-list
(telegram_queue_message.rs, lines 43-47). -/
def allowedSimple : List String :=
  ["b", "strong", "i", "em", "u", "ins",
   "s", "strike", "del", "code", "pre",
   "blockquote", "tg-spoiler"]

/-- The duplicate module's re-enabling loop body
(telegram_queue_message.rs, lines 49-56). -/
def reenableStep (acc : List Char) (tag : String) : List Char :=
  Telegram.replaceL (Telegram.closePat tag) (Telegram.closeTag tag)
    (Telegram.replaceL (Telegram.openPat tag) (Telegram.openTag tag) acc)

/-- Model of the body of the duplicate `sanitize_message`
(telegram_queue_message.rs, lines 28-59) as a pure function on the text.
The helper functions `utf8Len`, `escape` and `replaceL` model the shared
standard-library and `html_escape` crate functions, which both copies
call. -/
def sanitize_message (message : String) (max_message_length : Nat) : String :=
  let overflow_length := Telegram.utf8Len message > max_message_length
  let trimmed : List Char := message.data.take max_message_length
  let escaped := Telegram.escape trimmed
  let escaped2 := if overflow_length then escaped ++ "...".data else escaped
  String.mk (List.foldl reenableStep escaped2 allowedSimple)

/-- Model of the duplicate method `TelegramQueueMessage::sanitize_message`. -/
def TelegramQueueMessage.sanitize_message (self : TelegramQueueMessage)
    (max_message_length : Nat) : TelegramQueueMessage :=
  { self with
    message := TelegramQueueMessageModule.sanitize_message self.message max_message_length }

end TelegramQueueMessageModule

namespace Telegram

/-- The open/close pattern-replacement pairs contributed by a list of tag
names, in the order the re-enabling loop performs them. -/
def pairList : List String → List (List Char × List Char)
  | [] => []
  | t :: ts => (openPat t, openTag t) :: (closePat t, closeTag t) :: pairList ts

/-- All 26 pattern-replacement pairs of the allow-list, in loop order. -/
def allPairs : List (List Char × List Char) :=
  pairList allowedSimple

/-- The 26 literal tag strings (open and close) the re-enabling step can
inject: `<name>` and `</name>` for each allow-listed `name`. -/
def tagLits : List (List Char) :=
  allPairs.map Prod.snd

/-- Simultaneous one-pass variant of the re-enabling loop: scan left to
right and, at each position, replace the unique matching escaped-tag
pattern (if any).  Used as a canonical form to compare the sequential
per-tag replacements against.  The first `Nat` argument counts characters
still to be consumed from a matched pattern. -/
def multiAux (prs : List (List Char × List Char)) : Nat → List Char → List Char
  | _ + 1, [] => []
  | k + 1, _ :: cs => multiAux prs k cs
  | 0, [] => []
  | 0, c :: cs =>
    match List.find? (fun pr => List.isPrefixOf pr.1 (c :: cs)) prs with
    | some pr => pr.2 ++ multiAux prs (pr.1.length - 1) cs
    | none => c :: multiAux prs 0 cs

/-- Simultaneous one-pass replacement of all patterns in `prs`. -/
def multiRepL (prs : List (List Char × List Char)) (s : List Char) : List Char :=
  multiAux prs 0 s

/-- Well-tagged character sequences: a concatenation of ordinary
characters (neither `<` nor `>`) and whole literal allow-listed tags
(`<name>` or `</name>` with `name` in the allow-list).  Every occurrence
of `<` or `>` in such a sequence lies inside a literal allow-listed tag
occurrence. -/
inductive WT : List Char → Prop where
  | nil : WT []
  | chr : ∀ {c : Char} {t : List Char}, c ≠ '<' → c ≠ '>' → WT t → WT (c :: t)
  | tag : ∀ {tg t : List Char}, tg ∈ tagLits → WT t → WT (tg ++ t)

end Telegram

namespace Telegram

set_option maxHeartbeats 2000000

/-- C1: the overflow check of `sanitize_message` uses the UTF-8 byte
length (`String::len`), not the character count used by the truncation
step: the one-character input `é` (two UTF-8 bytes) with
`max_message_length = 1` has at most `max_length` characters, yet the
sanitized output carries the `...` overflow suffix.  This evaluates the
code at the failing input of the byte-versus-character unit mismatch. -/
theorem sanitize_overflow_marker_byte_length_bug :
    sanitize_message "é" 1 = "é..." ∧ "é".data.length ≤ 1 := by
  exact ⟨by decide, by decide⟩

/-- C2 counterexample: the escaping step (`html_escape::encode_text`)
does not escape quote characters.  On the input consisting of a double
quote and a single quote, both the escaped intermediate and the final
sanitized output hold the raw quote characters, not entity forms. -/
theorem sanitize_quotes_unescaped_cex :
    String.mk (escape "\"'".data) = "\"'" ∧ sanitize_message "\"'" 16 = "\"'" := by
  exact ⟨by decide, by decide⟩

/-- C2 amended: the escaping step escapes exactly `&`, `<` and `>` (into
`&amp;`, `&lt;`, `&gt;`) and leaves every other character — quote
characters included — unchanged. -/
theorem escape_leaves_other_chars (c : Char)
    (h1 : c ≠ '&') (h2 : c ≠ '<') (h3 : c ≠ '>') :
    escChar c = [c]
    ∧ escChar '&' = "&amp;".data
    ∧ escChar '<' = "&lt;".data
    ∧ escChar '>' = "&gt;".data := by
  refine ⟨?_, by decide, by decide, by decide⟩
  unfold escChar
  rw [if_neg h1, if_neg h2, if_neg h3]

/-- Witness for `escape_leaves_other_chars` at the double-quote
character. -/
theorem escape_leaves_other_chars_witness :
    escChar '"' = ['"']
    ∧ escChar '&' = "&amp;".data
    ∧ escChar '<' = "&lt;".data
    ∧ escChar '>' = "&gt;".data :=
  escape_leaves_other_chars '"' (by decide) (by decide) (by decide)

/-- C4: the truncation step keeps exactly the first
`min max_length (character count)` Unicode scalar values of the input — a
character-count prefix of the original — runs before escaping, and the
discarded remainder influences the output only through the overflow
flag: two inputs with the same character prefix and the same overflow
status sanitize identically. -/
theorem sanitize_truncation (msg other : String) (maxLen : Nat)
    (hpre : msg.data.take maxLen = other.data.take maxLen)
    (hov : utf8Len msg > maxLen ↔ utf8Len other > maxLen) :
    sanitize_message msg maxLen = sanitize_message other maxLen
    ∧ (msg.data.take maxLen).length = min maxLen msg.data.length
    ∧ msg.data.take maxLen ++ msg.data.drop maxLen = msg.data
    ∧ sanitize_message msg maxLen
        = String.mk (reenable (escape (msg.data.take maxLen)
            ++ if utf8Len msg > maxLen then "...".data else [])) := by
  refine ⟨?_, List.length_take maxLen msg.data, List.take_append_drop maxLen msg.data, ?_⟩
  · show String.mk (reenable (if utf8Len msg > maxLen
          then escape (msg.data.take maxLen) ++ "...".data
          else escape (msg.data.take maxLen)))
        = String.mk (reenable (if utf8Len other > maxLen
          then escape (other.data.take maxLen) ++ "...".data
          else escape (other.data.take maxLen)))
    rw [hpre]
    by_cases h : utf8Len msg > maxLen
    · rw [if_pos h, if_pos (hov.mp h)]
    · rw [if_neg h, if_neg (fun hh => h (hov.mpr hh))]
  · show String.mk (reenable (if utf8Len msg > maxLen
          then escape (msg.data.take maxLen) ++ "...".data
          else escape (msg.data.take maxLen))) = _
    by_cases h : utf8Len msg > maxLen
    · rw [if_pos h, if_pos h]
    · rw [if_neg h, if_neg h, List.append_nil]

/-- Witness for `sanitize_truncation`: two inputs agreeing on their first
five characters and both overflowing sanitize identically. -/
theorem sanitize_truncation_witness :
    sanitize_message "hello world" 5 = sanitize_message "hello there" 5 :=
  (sanitize_truncation "hello world" "hello there" 5 (by decide) (by decide)).1

/-- C5: the worked example — sanitizing `<b>bold</b> and more` with
`max_length = 10` truncates to the ten characters `<b>bold</b`, escapes,
appends the overflow suffix, and re-enables only the complete `<b>` open
tag, leaving the cut close-tag fragment escaped. -/
theorem sanitize_example_truncated_tag :
    sanitize_message "<b>bold</b> and more" 10 = "<b>bold&lt;/b..." := by
  decide

/-- C6: `build` renders `{severity_prefix}<i>{label}</i>\n{content}`,
with an empty prefix for severity `None` and `{emoji} - ` otherwise, and
copies `chat_id` and `force_send`; instantiated at the spec's example
(target 42, severity Error, label `ftp`, content `failed: timeout`,
priority false). -/
theorem build_renders_template :
    (∀ b : TelegramMessageBuilder,
      (b.build).message
          = (if b.status = MessageStatus.None then ""
              else b.status.emoji ++ " - ") ++ "<i>" ++ b.job_name ++ "</i>\n" ++ b.content
        ∧ (b.build).chat_id = b.chat_id ∧ (b.build).force_send = b.force_send)
    ∧ ((((((TelegramMessageBuilder.new 42).withStatus MessageStatus.Error).withJobName
          "ftp").withContent "failed: timeout").withForceSend false).build
        = TelegramQueueMessage.mk 42 "🚨 - <i>ftp</i>\nfailed: timeout" false) :=
  ⟨fun _ => ⟨rfl, rfl, rfl⟩, by decide⟩

/-- C7: tags with unknown names, mixed case, or attributes are not
matched by the exact-string case-sensitive re-enabling step and remain
escaped: the spec's `<script>` example, a mixed-case `<B>` tag and an
attributed `<b href=1>` tag all stay escaped literal text. -/
theorem sanitize_unknown_tags_stay_escaped :
    sanitize_message "<script>alert(1)</script>" 100
        = "&lt;script&gt;alert(1)&lt;/script&gt;"
    ∧ sanitize_message "<B>bold</B>" 100 = "&lt;B&gt;bold&lt;/B&gt;"
    ∧ sanitize_message "<b href=1>" 100 = "&lt;b href=1&gt;" := by
  exact ⟨by decide, by decide, by decide⟩

/-- C9: the sanitizer of `telegram.rs` and its near-identical copy in
`telegram_queue_message.rs` are extensionally equal: on every message
text and maximum length both produce the same text, and the two struct
methods agree field by field. -/
theorem sanitize_duplicate_modules_agree :
    ∀ (msg : String) (maxLen : Nat) (cid : Int) (fs : Bool),
      sanitize_message msg maxLen = TelegramQueueMessageModule.sanitize_message msg maxLen
      ∧ ((TelegramQueueMessage.mk cid msg fs).sanitize_message maxLen).message
          = ((TelegramQueueMessageModule.TelegramQueueMessage.mk cid msg fs).sanitize_message
              maxLen).message
      ∧ ((TelegramQueueMessage.mk cid msg fs).sanitize_message maxLen).chat_id
          = ((TelegramQueueMessageModule.TelegramQueueMessage.mk cid msg fs).sanitize_message
              maxLen).chat_id
      ∧ ((TelegramQueueMessage.mk cid msg fs).sanitize_message maxLen).force_send
          = ((TelegramQueueMessageModule.TelegramQueueMessage.mk cid msg fs).sanitize_message
              maxLen).force_send := by
  intro msg maxLen cid fs
  refine ⟨rfl, ?_, ?_, ?_⟩ <;>
    simp only [TelegramQueueMessage.sanitize_message,
      TelegramQueueMessageModule.TelegramQueueMessage.sanitize_message]
  exact rfl

/-- C10: `sanitize_message` mutates only the `message` field: `chat_id`
and `force_send` are returned unchanged, and the new `message` is the
pure sanitization of the old one. -/
theorem sanitize_message_frame :
    ∀ (m : TelegramQueueMessage) (n : Nat),
      (m.sanitize_message n).chat_id = m.chat_id
      ∧ (m.sanitize_message n).force_send = m.force_send
      ∧ (m.sanitize_message n).message = sanitize_message m.message n := by
  intro m n
  refine ⟨?_, ?_, rfl⟩ <;> simp only [TelegramQueueMessage.sanitize_message]

end Telegram

namespace Telegram

theorem isPrefixOf_cons_cons (a b : Char) (as bs : List Char) :
    List.isPrefixOf (a :: as) (b :: bs) = (a == b && List.isPrefixOf as bs) := rfl

theorem isPrefixOf_nil_left (l : List Char) : List.isPrefixOf [] l = true := by cases l <;> rfl

theorem isPrefixOf_cons_nil (a : Char) (as : List Char) :
    List.isPrefixOf (a :: as) [] = false := rfl

theorem replAux_skip (pat rep : List Char) :
    ∀ (k : Nat) (s : List Char), replAux pat rep k s = replaceL pat rep (s.drop k) := by
  intro k
  induction k with
  | zero => intro s; rw [List.drop_zero]; rfl
  | succ k ih =>
    intro s
    cases s with
    | nil => rfl
    | cons c cs => exact ih cs

theorem replaceL_cons (pat rep : List Char) (c : Char) (cs : List Char) :
    replaceL pat rep (c :: cs)
      = if List.isPrefixOf pat (c :: cs) then
          rep ++ replaceL pat rep (cs.drop (pat.length - 1))
        else c :: replaceL pat rep cs := by
  rw [show replaceL pat rep (c :: cs)
        = (if List.isPrefixOf pat (c :: cs) then
            rep ++ replAux pat rep (pat.length - 1) cs
          else c :: replAux pat rep 0 cs) from rfl,
      replAux_skip, replAux_skip, List.drop_zero]

theorem replaceL_append_left (p : Char) (ps rep : List Char) :
    ∀ (u X : List Char), (∀ c ∈ u, c ≠ p) →
      replaceL (p :: ps) rep (u ++ X) = u ++ replaceL (p :: ps) rep X := by
  intro u
  induction u with
  | nil => intro X _; rfl
  | cons c u ih =>
    intro X hu
    rw [List.cons_append, replaceL_cons, isPrefixOf_cons_cons]
    have hc : (p == c) = false :=
      beq_eq_false_iff_ne.mpr (Ne.symm (hu c (List.mem_cons_self c u)))
    rw [hc, Bool.false_and, if_neg (by simp), List.cons_append]
    rw [ih X (fun d hd => hu d (List.mem_cons_of_mem c hd))]

theorem isPrefixOf_or_of_isPrefixOf :
    ∀ (s a b : List Char), List.isPrefixOf a s = true → List.isPrefixOf b s = true →
      List.isPrefixOf a b = true ∨ List.isPrefixOf b a = true := by
  intro s
  induction s with
  | nil =>
    intro a b ha hb
    cases a with
    | nil => exact Or.inl (isPrefixOf_nil_left b)
    | cons x xs => exact absurd ha (by simp [isPrefixOf_cons_nil])
  | cons s0 s' ih =>
    intro a b ha hb
    cases a with
    | nil => exact Or.inl (isPrefixOf_nil_left b)
    | cons a0 a' =>
      cases b with
      | nil => exact Or.inr rfl
      | cons b0 b' =>
        rw [isPrefixOf_cons_cons, Bool.and_eq_true] at ha hb
        have ha0 : a0 = s0 := beq_iff_eq.mp ha.1
        have hb0 : b0 = s0 := beq_iff_eq.mp hb.1
        rcases ih a' b' ha.2 hb.2 with h | h
        · exact Or.inl (by rw [isPrefixOf_cons_cons, beq_iff_eq.mpr (ha0.trans hb0.symm), h]; rfl)
        · exact Or.inr (by rw [isPrefixOf_cons_cons, beq_iff_eq.mpr (hb0.trans ha0.symm), h]; rfl)

theorem isPrefixOf_drop :
    ∀ (k : Nat) (p t : List Char), List.isPrefixOf p t = true →
      List.isPrefixOf (p.drop k) (t.drop k) = true := by
  intro k
  induction k with
  | zero => intro p t h; rwa [List.drop_zero, List.drop_zero]
  | succ k ih =>
    intro p t h
    cases p with
    | nil => simp [isPrefixOf_nil_left]
    | cons p0 p' =>
      cases t with
      | nil => exact absurd h (by simp [isPrefixOf_cons_nil])
      | cons t0 t' =>
        rw [isPrefixOf_cons_cons, Bool.and_eq_true] at h
        exact ih p' t' h.2

theorem isPrefixOf_length_le :
    ∀ (p t : List Char), List.isPrefixOf p t = true → p.length ≤ t.length := by
  intro p
  induction p with
  | nil => intro t _; simp
  | cons p0 p' ih =>
    intro t h
    cases t with
    | nil => exact absurd h (by simp [isPrefixOf_cons_nil])
    | cons t0 t' =>
      rw [isPrefixOf_cons_cons, Bool.and_eq_true] at h
      simpa using Nat.succ_le_succ (ih t' h.2)

end Telegram

namespace Telegram

theorem multiAux_skip (prs : List (List Char × List Char)) :
    ∀ (k : Nat) (s : List Char), multiAux prs k s = multiRepL prs (s.drop k) := by
  intro k
  induction k with
  | zero => intro s; rw [List.drop_zero]; rfl
  | succ k ih =>
    intro s
    cases s with
    | nil => rfl
    | cons c cs => exact ih cs

theorem multiRepL_nil (prs : List (List Char × List Char)) : multiRepL prs [] = [] := rfl

theorem multiRepL_cons_eq (prs : List (List Char × List Char)) (c : Char) (cs : List Char) :
    multiRepL prs (c :: cs)
      = match List.find? (fun pr => List.isPrefixOf pr.1 (c :: cs)) prs with
        | some pr => pr.2 ++ multiRepL prs (cs.drop (pr.1.length - 1))
        | none => c :: multiRepL prs cs := by
  rw [show multiRepL prs (c :: cs)
        = (match List.find? (fun pr => List.isPrefixOf pr.1 (c :: cs)) prs with
          | some pr => pr.2 ++ multiAux prs (pr.1.length - 1) cs
          | none => c :: multiAux prs 0 cs) from rfl]
  cases List.find? (fun pr => List.isPrefixOf pr.1 (c :: cs)) prs with
  | none => simp only [multiAux_skip, List.drop_zero]
  | some pr => simp only [multiAux_skip]

theorem multiRepL_cons_some (prs : List (List Char × List Char)) (c : Char)
    (cs : List Char) (pr : List Char × List Char)
    (hf : List.find? (fun pr => List.isPrefixOf pr.1 (c :: cs)) prs = some pr) :
    multiRepL prs (c :: cs) = pr.2 ++ multiRepL prs (cs.drop (pr.1.length - 1)) := by
  rw [multiRepL_cons_eq, hf]

theorem multiRepL_cons_none (prs : List (List Char × List Char)) (c : Char)
    (cs : List Char)
    (hf : List.find? (fun pr => List.isPrefixOf pr.1 (c :: cs)) prs = none) :
    multiRepL prs (c :: cs) = c :: multiRepL prs cs := by
  rw [multiRepL_cons_eq, hf]

theorem find?_append_some {α : Type} (p : α → Bool) :
    ∀ (l₁ l₂ : List α) (a : α), List.find? p l₁ = some a →
      List.find? p (l₁ ++ l₂) = some a := by
  intro l₁
  induction l₁ with
  | nil => intro l₂ a h; exact absurd h (by simp)
  | cons x xs ih =>
    intro l₂ a h
    by_cases hx : p x = true
    · rw [List.find?_cons_of_pos _ hx] at h
      rw [List.cons_append, List.find?_cons_of_pos _ hx]
      exact h
    · rw [List.find?_cons_of_neg _ hx] at h
      rw [List.cons_append, List.find?_cons_of_neg _ hx]
      exact ih l₂ a h

theorem find?_append_none {α : Type} (p : α → Bool) :
    ∀ (l₁ l₂ : List α), List.find? p l₁ = none →
      List.find? p (l₁ ++ l₂) = List.find? p l₂ := by
  intro l₁
  induction l₁ with
  | nil => intro l₂ _; rfl
  | cons x xs ih =>
    intro l₂ h
    by_cases hx : p x = true
    · rw [List.find?_cons_of_pos _ hx] at h; exact absurd h (by simp)
    · rw [List.find?_cons_of_neg _ hx] at h
      rw [List.cons_append, List.find?_cons_of_neg _ hx]
      exact ih l₂ h

end Telegram

namespace Telegram

set_option maxHeartbeats 4000000

theorem allowedSimple_nodup : allowedSimple.Nodup := by decide

theorem allPairs_pat_facts :
    ∀ pr ∈ allPairs, pr.1.head? = some '&' ∧ '<' ∉ pr.1 ∧ '>' ∉ pr.1 ∧ pr.1 ≠ [] := by
  decide

theorem allPairs_rep_facts :
    ∀ pr ∈ allPairs, pr.2.head? = some '<' ∧ '&' ∉ pr.2 ∧ pr.2 ≠ [] := by
  decide

theorem allPairs_fst_inj :
    ∀ pr1 ∈ allPairs, ∀ pr2 ∈ allPairs, pr1.1 = pr2.1 → pr1 = pr2 := by
  decide

theorem pat_names_inj :
    ∀ t1 ∈ allowedSimple, ∀ t2 ∈ allowedSimple,
      (openPat t1 = openPat t2 → t1 = t2) ∧ openPat t1 ≠ closePat t2
      ∧ (closePat t1 = closePat t2 → t1 = t2) := by
  decide

end Telegram

namespace Telegram

set_option maxHeartbeats 16000000

theorem allPairs_no_overlap :
    ∀ pr1 ∈ allPairs, ∀ pr2 ∈ allPairs, ∀ k, k < pr1.1.length →
      (List.isPrefixOf (pr1.1.drop k) pr2.1 = true
        ∨ List.isPrefixOf pr2.1 (pr1.1.drop k) = true) →
      k = 0 ∧ pr1.1 = pr2.1 := by
  decide

end Telegram

namespace Telegram

theorem pairList_append : ∀ (l₁ l₂ : List String),
    pairList (l₁ ++ l₂) = pairList l₁ ++ pairList l₂ := by
  intro l₁ l₂
  induction l₁ with
  | nil => rfl
  | cons t ts ih => simp [pairList, ih]

theorem mem_pairList : ∀ (ns : List String) (pr : List Char × List Char),
    pr ∈ pairList ns
      ↔ ∃ t ∈ ns, pr = (openPat t, openTag t) ∨ pr = (closePat t, closeTag t) := by
  intro ns
  induction ns with
  | nil => intro pr; simp [pairList]
  | cons t ts ih =>
    intro pr
    rw [show pairList (t :: ts)
          = (openPat t, openTag t) :: (closePat t, closeTag t) :: pairList ts from rfl]
    constructor
    · intro h
      rcases List.mem_cons.mp h with h1 | h2
      · exact ⟨t, List.mem_cons_self t ts, Or.inl h1⟩
      · rcases List.mem_cons.mp h2 with h3 | h4
        · exact ⟨t, List.mem_cons_self t ts, Or.inr h3⟩
        · rcases (ih pr).mp h4 with ⟨u, hu, hor⟩
          exact ⟨u, List.mem_cons_of_mem t hu, hor⟩
    · rintro ⟨u, hu, hor⟩
      rcases List.mem_cons.mp hu with h | hu'
      · subst h
        rcases hor with h | h
        · rw [h]; exact List.mem_cons_self _ _
        · rw [h]; exact List.mem_cons_of_mem _ (List.mem_cons_self _ _)
      · exact List.mem_cons_of_mem _
          (List.mem_cons_of_mem _ ((ih pr).mpr ⟨u, hu', hor⟩))

theorem pairList_sub_allPairs (ns : List String) (h : ∀ t ∈ ns, t ∈ allowedSimple) :
    ∀ pr ∈ pairList ns, pr ∈ allPairs := by
  intro pr hpr
  rcases (mem_pairList ns pr).mp hpr with ⟨t, ht, hor⟩
  exact (mem_pairList allowedSimple pr).mpr ⟨t, h t ht, hor⟩

theorem pat_shape {pr : List Char × List Char} (h : pr ∈ allPairs) :
    ∃ tl, pr.1 = '&' :: tl := by
  have := (allPairs_pat_facts pr h).1
  cases hp : pr.1 with
  | nil => rw [hp] at this; exact absurd this (by simp)
  | cons x xs =>
    rw [hp] at this
    simp only [List.head?_cons, Option.some.injEq] at this
    exact ⟨xs, by rw [this]⟩

theorem rep_shape {pr : List Char × List Char} (h : pr ∈ allPairs) :
    ∃ tl, pr.2 = '<' :: tl := by
  have := (allPairs_rep_facts pr h).1
  cases hp : pr.2 with
  | nil => rw [hp] at this; exact absurd this (by simp)
  | cons x xs =>
    rw [hp] at this
    simp only [List.head?_cons, Option.some.injEq] at this
    exact ⟨xs, by rw [this]⟩

end Telegram

namespace Telegram

theorem isPrefixOf_multiRepL
    (A : List (List Char × List Char)) (hA : ∀ pr ∈ A, pr ∈ allPairs)
    (p r : List Char) (hp : (p, r) ∈ allPairs)
    (hnot : ∀ pr ∈ A, pr.1 ≠ p) :
    ∀ (t : List Char) (k : Nat),
      List.isPrefixOf (p.drop k) (multiRepL A t) = List.isPrefixOf (p.drop k) t := by
  have main : ∀ (n : Nat) (t : List Char), t.length ≤ n → ∀ (k : Nat),
      List.isPrefixOf (p.drop k) (multiRepL A t) = List.isPrefixOf (p.drop k) t := by
    intro n
    induction n with
    | zero =>
      intro t ht k
      have hnil : t = [] := List.eq_nil_of_length_eq_zero (Nat.le_zero.mp ht)
      subst hnil; rfl
    | succ n ih =>
      intro t ht k
      cases t with
      | nil => rfl
      | cons c cs =>
        by_cases hk : k < p.length
        · obtain ⟨y, ys, hd⟩ : ∃ x xs, p.drop k = x :: xs := by
            cases hd : p.drop k with
            | nil =>
              exfalso
              have h1 := List.length_drop k p
              rw [hd] at h1
              simp only [List.length_nil] at h1
              omega
            | cons x xs => exact ⟨x, xs, rfl⟩
          rcases hf : List.find? (fun pr => List.isPrefixOf pr.1 (c :: cs)) A with _ | pr
          · rw [multiRepL_cons_none A c cs hf, hd, isPrefixOf_cons_cons,
              isPrefixOf_cons_cons]
            have hys : ys = p.drop (k + 1) := by
              rw [← List.tail_drop p k, hd]; rfl
            rw [hys, ih cs (Nat.le_of_succ_le_succ ht) (k + 1)]
          · have hq0 := List.find?_some hf
            have hq : List.isPrefixOf pr.1 (c :: cs) = true := hq0
            have hmem : pr ∈ allPairs := hA pr (List.mem_of_find?_eq_some hf)
            have hR : List.isPrefixOf (p.drop k) (c :: cs) = false := by
              cases hR' : List.isPrefixOf (p.drop k) (c :: cs) with
              | false => rfl
              | true =>
                exfalso
                have hco := isPrefixOf_or_of_isPrefixOf (c :: cs) (p.drop k) pr.1 hR' hq
                have h0 := allPairs_no_overlap (p, r) hp pr hmem k hk hco
                exact hnot pr (List.mem_of_find?_eq_some hf) h0.2.symm
            rw [hR, multiRepL_cons_some A c cs pr hf]
            rcases rep_shape hmem with ⟨tl, hrep⟩
            rw [hrep, List.cons_append, hd, isPrefixOf_cons_cons]
            have hy : y ≠ '<' := by
              have hyp : y ∈ p := by
                refine List.drop_subset k p ?_
                rw [hd]; exact List.mem_cons_self _ _
              have hlt : '<' ∉ (p, r).1 := (allPairs_pat_facts (p, r) hp).2.1
              exact fun he => hlt (he ▸ hyp)
            rw [beq_eq_false_iff_ne.mpr hy, Bool.false_and]
        · have hnil : p.drop k = [] := List.drop_eq_nil_of_le (Nat.le_of_not_lt hk)
          rw [hnil, isPrefixOf_nil_left, isPrefixOf_nil_left]
  exact fun t k => main t.length t (Nat.le_refl _) k

end Telegram

namespace Telegram

theorem multiRepL_skip_window (A : List (List Char × List Char)) :
    ∀ (m : Nat) (cs : List Char), m ≤ cs.length →
      (∀ j, j < m → ∀ pr ∈ A, List.isPrefixOf pr.1 (cs.drop j) = false) →
      multiRepL A cs = cs.take m ++ multiRepL A (cs.drop m) := by
  intro m
  induction m with
  | zero => intro cs _ _; simp
  | succ m ih =>
    intro cs hlen hno
    cases cs with
    | nil => simp at hlen
    | cons c cs' =>
      have hf : List.find? (fun pr => List.isPrefixOf pr.1 (c :: cs')) A = none := by
        apply List.find?_eq_none.mpr
        intro pr hpr
        have h0 := hno 0 (Nat.succ_pos m) pr hpr
        rw [List.drop_zero] at h0
        simp [h0]
      rw [multiRepL_cons_none A c cs' hf,
        ih cs' (Nat.le_of_succ_le_succ hlen)
          (fun j hj pr hpr => hno (j + 1) (Nat.succ_lt_succ hj) pr hpr)]
      rfl

theorem replaceL_multiRepL
    (A : List (List Char × List Char)) (hA : ∀ pr ∈ A, pr ∈ allPairs)
    (p r : List Char) (hp : (p, r) ∈ allPairs)
    (hnot : ∀ pr ∈ A, pr.1 ≠ p) :
    ∀ (t : List Char),
      replaceL p r (multiRepL A t) = multiRepL (A ++ [(p, r)]) t := by
  have main : ∀ (n : Nat) (t : List Char), t.length ≤ n →
      replaceL p r (multiRepL A t) = multiRepL (A ++ [(p, r)]) t := by
    intro n
    induction n with
    | zero =>
      intro t ht
      have hnil : t = [] := List.eq_nil_of_length_eq_zero (Nat.le_zero.mp ht)
      subst hnil; rfl
    | succ n ih =>
      intro t ht
      cases t with
      | nil => rfl
      | cons c cs =>
        rcases hf : List.find? (fun pr => List.isPrefixOf pr.1 (c :: cs)) A with _ | pr
        · by_cases hm : List.isPrefixOf p (c :: cs) = true
          · have hfB : List.find? (fun pr => List.isPrefixOf pr.1 (c :: cs))
                (A ++ [(p, r)]) = some (p, r) := by
              rw [find?_append_none _ A [(p, r)] hf]
              exact List.find?_cons_of_pos _ hm
            have hmA : multiRepL A (c :: cs) = c :: multiRepL A cs :=
              multiRepL_cons_none A c cs hf
            have hpm : List.isPrefixOf p (multiRepL A (c :: cs)) = true := by
              have hpi := isPrefixOf_multiRepL A hA p r hp hnot (c :: cs) 0
              rw [List.drop_zero] at hpi
              rw [hpi]; exact hm
            rw [hmA] at hpm
            rw [multiRepL_cons_some _ c cs (p, r) hfB, hmA, replaceL_cons, if_pos hpm]
            congr 1
            have hpne : p ≠ [] := (allPairs_pat_facts (p, r) hp).2.2.2
            have hppos : 0 < p.length := List.length_pos.mpr hpne
            have hlenp : p.length ≤ cs.length + 1 := by
              have := isPrefixOf_length_le p (c :: cs) hm
              simpa using this
            have hm' : p.length - 1 ≤ cs.length := by omega
            have hwin : ∀ j, j < p.length - 1 → ∀ pr ∈ A,
                List.isPrefixOf pr.1 (cs.drop j) = false := by
              intro j hj pr hpr
              cases hcp : List.isPrefixOf pr.1 (cs.drop j) with
              | false => rfl
              | true =>
                exfalso
                have h1 : List.isPrefixOf (p.drop (j + 1)) (cs.drop j) = true :=
                  isPrefixOf_drop (j + 1) p (c :: cs) hm
                have hco := isPrefixOf_or_of_isPrefixOf (cs.drop j)
                  (p.drop (j + 1)) pr.1 h1 hcp
                have h0 := allPairs_no_overlap (p, r) hp pr (hA pr hpr)
                  (j + 1) (by show j + 1 < p.length; omega) hco
                exact Nat.succ_ne_zero j h0.1
            rw [multiRepL_skip_window A (p.length - 1) cs hm' hwin]
            have htk : (cs.take (p.length - 1)).length = p.length - 1 := by
              rw [List.length_take]
              exact Nat.min_eq_left hm'
            have hdl : ∀ (a b : List Char) (m : Nat), a.length = m →
                (a ++ b).drop m = b := by
              intro a b m h; rw [← h, List.drop_left]
            rw [hdl _ _ _ htk]
            refine ih (cs.drop (p.length - 1)) ?_
            have := List.length_drop (p.length - 1) cs
            simp only [List.length_cons] at ht
            omega
          · have hm' : List.isPrefixOf p (c :: cs) = false := by
              cases h : List.isPrefixOf p (c :: cs) with
              | false => rfl
              | true => exact absurd h hm
            have hfB : List.find? (fun pr => List.isPrefixOf pr.1 (c :: cs))
                (A ++ [(p, r)]) = none := by
              rw [find?_append_none _ A [(p, r)] hf,
                List.find?_cons_of_neg _ (by simp [hm'])]
              rfl
            have hmA : multiRepL A (c :: cs) = c :: multiRepL A cs :=
              multiRepL_cons_none A c cs hf
            have hpm : List.isPrefixOf p (multiRepL A (c :: cs)) = false := by
              have hpi := isPrefixOf_multiRepL A hA p r hp hnot (c :: cs) 0
              rw [List.drop_zero] at hpi
              rw [hpi]; exact hm'
            rw [hmA] at hpm
            rw [multiRepL_cons_none _ c cs hfB, hmA, replaceL_cons,
              if_neg (by simp [hpm])]
            rw [ih cs (Nat.le_of_succ_le_succ ht)]
        · have hq0 := List.find?_some hf
          have hq : List.isPrefixOf pr.1 (c :: cs) = true := hq0
          have hmemA : pr ∈ A := List.mem_of_find?_eq_some hf
          have hmem : pr ∈ allPairs := hA pr hmemA
          have hfB := find?_append_some _ A [(p, r)] pr hf
          rw [multiRepL_cons_some A c cs pr hf, multiRepL_cons_some _ c cs pr hfB]
          rcases pat_shape hp with ⟨ptl, hps0⟩
          have hps : p = '&' :: ptl := hps0
          have hu : ∀ ch ∈ pr.2, ch ≠ '&' := by
            intro ch hch he
            exact (allPairs_rep_facts pr hmem).2.1 (he ▸ hch)
          rw [hps, replaceL_append_left '&' ptl r pr.2 _ hu]
          congr 1
          rw [← hps]
          refine ih (cs.drop (pr.1.length - 1)) ?_
          have := List.length_drop (pr.1.length - 1) cs
          simp only [List.length_cons] at ht
          omega
  exact fun t => main t.length t (Nat.le_refl _)

end Telegram

namespace Telegram

theorem multiRepL_congr (A B : List (List Char × List Char))
    (hA : ∀ pr ∈ A, pr ∈ allPairs) (hB : ∀ pr ∈ B, pr ∈ allPairs)
    (hmem : ∀ pr, pr ∈ A ↔ pr ∈ B) :
    ∀ s, multiRepL A s = multiRepL B s := by
  have main : ∀ (n : Nat) (s : List Char), s.length ≤ n →
      multiRepL A s = multiRepL B s := by
    intro n
    induction n with
    | zero =>
      intro s hs
      have hnil : s = [] := List.eq_nil_of_length_eq_zero (Nat.le_zero.mp hs)
      subst hnil; rfl
    | succ n ih =>
      intro s hs
      cases s with
      | nil => rfl
      | cons c cs =>
        rcases hfA : List.find? (fun pr => List.isPrefixOf pr.1 (c :: cs)) A with _ | pr
        · have hfB : List.find? (fun pr => List.isPrefixOf pr.1 (c :: cs)) B = none := by
            apply List.find?_eq_none.mpr
            intro x hx
            exact List.find?_eq_none.mp hfA x ((hmem x).mpr hx)
          rw [multiRepL_cons_none A c cs hfA, multiRepL_cons_none B c cs hfB,
            ih cs (Nat.le_of_succ_le_succ hs)]
        · have hqA0 := List.find?_some hfA
          have hqA : List.isPrefixOf pr.1 (c :: cs) = true := hqA0
          have hmemB : pr ∈ B := (hmem pr).mp (List.mem_of_find?_eq_some hfA)
          rcases hfB : List.find? (fun pr => List.isPrefixOf pr.1 (c :: cs)) B with _ | pr'
          · exact absurd hqA (List.find?_eq_none.mp hfB pr hmemB)
          · have hq'0 := List.find?_some hfB
            have hq' : List.isPrefixOf pr'.1 (c :: cs) = true := hq'0
            have hco := isPrefixOf_or_of_isPrefixOf (c :: cs) pr.1 pr'.1 hqA hq'
            have hpr : pr ∈ allPairs := hA pr (List.mem_of_find?_eq_some hfA)
            have hpr' : pr' ∈ allPairs := hB pr' (List.mem_of_find?_eq_some hfB)
            have hne : pr.1 ≠ [] := (allPairs_pat_facts pr hpr).2.2.2
            have h0 := allPairs_no_overlap pr hpr pr' hpr' 0
              (List.length_pos.mpr hne) (by rw [List.drop_zero]; exact hco)
            have hpp : pr = pr' := allPairs_fst_inj pr hpr pr' hpr' h0.2
            subst hpp
            rw [multiRepL_cons_some A c cs pr hfA, multiRepL_cons_some B c cs pr hfB]
            congr 1
            refine ih (cs.drop (pr.1.length - 1)) ?_
            have := List.length_drop (pr.1.length - 1) cs
            simp only [List.length_cons] at hs
            omega
  exact fun s => main s.length s (Nat.le_refl _)

theorem WT_multiRepL (A : List (List Char × List Char))
    (hA : ∀ pr ∈ A, pr ∈ allPairs) :
    ∀ s, (∀ c ∈ s, c ≠ '<' ∧ c ≠ '>') → WT (multiRepL A s) := by
  have main : ∀ (n : Nat) (s : List Char), s.length ≤ n →
      (∀ c ∈ s, c ≠ '<' ∧ c ≠ '>') → WT (multiRepL A s) := by
    intro n
    induction n with
    | zero =>
      intro s hs _
      have hnil : s = [] := List.eq_nil_of_length_eq_zero (Nat.le_zero.mp hs)
      subst hnil; exact WT.nil
    | succ n ih =>
      intro s hs hcl
      cases s with
      | nil => exact WT.nil
      | cons c cs =>
        rcases hf : List.find? (fun pr => List.isPrefixOf pr.1 (c :: cs)) A with _ | pr
        · rw [multiRepL_cons_none A c cs hf]
          have hc := hcl c (List.mem_cons_self c cs)
          exact WT.chr hc.1 hc.2
            (ih cs (Nat.le_of_succ_le_succ hs)
              (fun d hd => hcl d (List.mem_cons_of_mem c hd)))
        · rw [multiRepL_cons_some A c cs pr hf]
          refine WT.tag (List.mem_map_of_mem Prod.snd (hA pr (List.mem_of_find?_eq_some hf))) ?_
          refine ih (cs.drop (pr.1.length - 1)) ?_ ?_
          · have := List.length_drop (pr.1.length - 1) cs
            simp only [List.length_cons] at hs
            omega
          · intro d hd
            exact hcl d (List.mem_cons_of_mem c (List.drop_subset _ cs hd))
  exact fun s => main s.length s (Nat.le_refl _)

theorem escChar_no_angle (d c : Char) (h : c ∈ escChar d) : c ≠ '<' ∧ c ≠ '>' := by
  unfold escChar at h
  by_cases h1 : d = '&'
  · rw [if_pos h1] at h
    rw [show ("&amp;".data : List Char) = ['&', 'a', 'm', 'p', ';'] from rfl] at h
    simp only [List.mem_cons, List.not_mem_nil, or_false] at h
    rcases h with rfl | rfl | rfl | rfl | rfl <;> exact ⟨by decide, by decide⟩
  · rw [if_neg h1] at h
    by_cases h2 : d = '<'
    · rw [if_pos h2] at h
      rw [show ("&lt;".data : List Char) = ['&', 'l', 't', ';'] from rfl] at h
      simp only [List.mem_cons, List.not_mem_nil, or_false] at h
      rcases h with rfl | rfl | rfl | rfl <;> exact ⟨by decide, by decide⟩
    · rw [if_neg h2] at h
      by_cases h3 : d = '>'
      · rw [if_pos h3] at h
        rw [show ("&gt;".data : List Char) = ['&', 'g', 't', ';'] from rfl] at h
        simp only [List.mem_cons, List.not_mem_nil, or_false] at h
        rcases h with rfl | rfl | rfl | rfl <;> exact ⟨by decide, by decide⟩
      · rw [if_neg h3] at h
        simp only [List.mem_cons, List.not_mem_nil, or_false] at h
        subst h
        exact ⟨h2, h3⟩

theorem escape_no_angle (t : List Char) : ∀ c ∈ escape t, c ≠ '<' ∧ c ≠ '>' := by
  intro c hc
  rcases List.mem_flatMap.mp hc with ⟨d, _, hcd⟩
  exact escChar_no_angle d c hcd

theorem dots_no_angle : ∀ c ∈ ("...".data : List Char), c ≠ '<' ∧ c ≠ '>' := by
  intro c hc
  rw [show ("...".data : List Char) = ['.', '.', '.'] from rfl] at hc
  simp only [List.mem_cons, List.not_mem_nil, or_false] at hc
  rcases hc with rfl | rfl | rfl <;> exact ⟨by decide, by decide⟩

end Telegram

namespace Telegram

theorem multiRepL_nil_pairs : ∀ (u : List Char), multiRepL [] u = u := by
  intro u
  induction u with
  | nil => rfl
  | cons c cs ihu =>
    rw [multiRepL_cons_none [] c cs List.find?_nil, ihu]

theorem foldl_reenableStep_eq : ∀ (names : List String),
    (∀ t ∈ names, t ∈ allowedSimple) → names.Nodup →
    ∀ s, List.foldl reenableStep s names = multiRepL (pairList names) s := by
  intro names
  induction names using List.reverseRecOn with
  | nil =>
    intro _ _ s
    rw [show pairList [] = [] from rfl, multiRepL_nil_pairs s]
    rfl
  | append_singleton L t ihL =>
    intro hsub hnd s
    have htA : t ∈ allowedSimple := hsub t (by simp)
    have hsubL : ∀ u ∈ L, u ∈ allowedSimple := fun u hu => hsub u (by simp [hu])
    have hndL : L.Nodup := (List.nodup_append.mp hnd).1
    have htL : t ∉ L := by
      intro hmem
      exact (List.nodup_append.mp hnd).2.2 hmem (by simp)
    have hAsub : ∀ pr ∈ pairList L, pr ∈ allPairs := pairList_sub_allPairs L hsubL
    have hopenMem : (openPat t, openTag t) ∈ allPairs :=
      (mem_pairList allowedSimple _).mpr ⟨t, htA, Or.inl rfl⟩
    have hcloseMem : (closePat t, closeTag t) ∈ allPairs :=
      (mem_pairList allowedSimple _).mpr ⟨t, htA, Or.inr rfl⟩
    have hnotOpen : ∀ pr ∈ pairList L, pr.1 ≠ openPat t := by
      intro pr hpr he
      rcases (mem_pairList L pr).mp hpr with ⟨u, hu, hor⟩
      rcases hor with h | h
      · rw [h] at he
        have hut : u = t := (pat_names_inj u (hsubL u hu) t htA).1 he
        exact htL (hut ▸ hu)
      · rw [h] at he
        exact (pat_names_inj t htA u (hsubL u hu)).2.1 he.symm
    have hA2 : ∀ pr ∈ pairList L ++ [(openPat t, openTag t)], pr ∈ allPairs := by
      intro pr hpr
      rcases List.mem_append.mp hpr with h | h
      · exact hAsub pr h
      · have hpr' : pr = (openPat t, openTag t) := by simpa using h
        rw [hpr']; exact hopenMem
    have hnotClose : ∀ pr ∈ pairList L ++ [(openPat t, openTag t)], pr.1 ≠ closePat t := by
      intro pr hpr he
      rcases List.mem_append.mp hpr with h | h
      · rcases (mem_pairList L pr).mp h with ⟨u, hu, hor⟩
        rcases hor with h2 | h2
        · rw [h2] at he
          exact (pat_names_inj u (hsubL u hu) t htA).2.1 he
        · rw [h2] at he
          have hut : u = t := (pat_names_inj u (hsubL u hu) t htA).2.2 he
          exact htL (hut ▸ hu)
      · have hpr' : pr = (openPat t, openTag t) := by simpa using h
        rw [hpr'] at he
        exact (pat_names_inj t htA t htA).2.1 he
    rw [List.foldl_append]
    rw [show List.foldl reenableStep (List.foldl reenableStep s L) [t]
        = replaceL (closePat t) (closeTag t)
            (replaceL (openPat t) (openTag t) (List.foldl reenableStep s L)) from rfl]
    rw [ihL hsubL hndL s]
    rw [replaceL_multiRepL (pairList L) hAsub (openPat t) (openTag t) hopenMem hnotOpen s]
    rw [replaceL_multiRepL (pairList L ++ [(openPat t, openTag t)]) hA2
      (closePat t) (closeTag t) hcloseMem hnotClose s]
    rw [pairList_append, List.append_assoc]
    rfl

end Telegram

namespace Telegram

/-- C3: for every input and every maximum length, the sanitized output is
well-tagged (`WT`): it is a concatenation of non-angle-bracket characters
and whole literal allow-listed tags `<name>` / `</name>` (the members of
`tagLits`, built from the thirteen allow-listed names), so every
occurrence of `<` or `>` lies inside such a literal tag occurrence and
the output never contains raw angle-bracket markup other than those
tags. -/
theorem sanitize_output_well_tagged :
    ∀ (msg : String) (maxLen : Nat), WT (sanitize_message msg maxLen).data := by
  intro msg maxLen
  have hdata : ∀ l : List Char, (String.mk l).data = l := fun _ => rfl
  rw [show sanitize_message msg maxLen
      = String.mk (reenable (if utf8Len msg > maxLen
          then escape (msg.data.take maxLen) ++ "...".data
          else escape (msg.data.take maxLen))) from rfl, hdata]
  have hclean : ∀ c ∈ (if utf8Len msg > maxLen
      then escape (msg.data.take maxLen) ++ "...".data
      else escape (msg.data.take maxLen)), c ≠ '<' ∧ c ≠ '>' := by
    by_cases h : utf8Len msg > maxLen
    · rw [if_pos h]
      intro c hc
      rcases List.mem_append.mp hc with h1 | h1
      · exact escape_no_angle _ c h1
      · exact dots_no_angle c h1
    · rw [if_neg h]
      intro c hc
      exact escape_no_angle _ c hc
  unfold reenable
  rw [foldl_reenableStep_eq allowedSimple (fun _ h => h) allowedSimple_nodup]
  exact WT_multiRepL (pairList allowedSimple) (fun _ h => h) _ hclean

/-- C8: the order of the per-tag re-enabling substitutions is
inconsequential: on every string produced by the escaping and
overflow-marker steps (an escaped text `escape t`, optionally followed by
the `...` marker), folding the per-name open/close replacements over any
permutation of the thirteen allow-listed tag names yields the same string
as folding them in the listed order. -/
theorem reenable_order_inconsequential :
    ∀ (names : List String), names.Perm allowedSimple →
    ∀ (t : List Char) (b : Bool),
      List.foldl reenableStep (escape t ++ if b then "...".data else []) names
        = List.foldl reenableStep (escape t ++ if b then "...".data else [])
            allowedSimple := by
  intro names hperm t b
  have hmm : ∀ pr, pr ∈ pairList names ↔ pr ∈ allPairs := by
    intro pr
    constructor
    · intro h
      rcases (mem_pairList names pr).mp h with ⟨u, hu, hor⟩
      exact (mem_pairList allowedSimple pr).mpr ⟨u, hperm.subset hu, hor⟩
    · intro h
      rcases (mem_pairList allowedSimple pr).mp h with ⟨u, hu, hor⟩
      exact (mem_pairList names pr).mpr ⟨u, hperm.mem_iff.mpr hu, hor⟩
  rw [foldl_reenableStep_eq names (fun x hx => hperm.subset hx)
      (hperm.nodup_iff.mpr allowedSimple_nodup),
    foldl_reenableStep_eq allowedSimple (fun _ h => h) allowedSimple_nodup]
  exact multiRepL_congr (pairList names) allPairs
    (fun pr hpr => (hmm pr).mp hpr) (fun _ h => h) hmm _

/-- Witness for `reenable_order_inconsequential`: the reversed allow-list
is a permutation of the allow-list and produces the same re-enabled
string on a concrete escaped-and-marked input. -/
theorem reenable_order_inconsequential_witness :
    List.foldl reenableStep
        (escape "<b>x</b><i>y".data ++ if true then "...".data else [])
        allowedSimple.reverse
      = List.foldl reenableStep
        (escape "<b>x</b><i>y".data ++ if true then "...".data else [])
        allowedSimple :=
  reenable_order_inconsequential allowedSimple.reverse
    (List.reverse_perm allowedSimple) "<b>x</b><i>y".data true

end Telegram
